import Mathlib

/-!
Verification of the virtual consensus state (`consensus/src/dolphin/virtual_state.rs`)
and the worker ingress multiplexer (`rust/worker/src/net.rs`) of the narwhal repository.

Modelling conventions:
* `PublicKey` and `Digest` are `Nat` (opaque totally ordered identifiers / hashes).
* Rust `HashMap`s are association lists (`List (Nat × α)`) with first-match lookup;
  all maps built by the code keep keys unique, and every operation below
  (`lookupA`, `insertA`, key-filtering) mirrors the corresponding `HashMap`
  operation (`get`, `insert`, `retain`).
* `Certificate` carries exactly the accessors the core consumes: `origin()`,
  `digest()`, `virtual_round()`, `virtual_parents()`.
-/

/-- Association-list lookup, mirroring `HashMap::get`. -/
def lookupA {α : Type} : List (Nat × α) → Nat → Option α
  | [], _ => none
  | (k, v) :: t, j => if k = j then some v else lookupA t j

/-- Association-list insert-or-replace, mirroring `HashMap::insert`. -/
def insertA {α : Type} : List (Nat × α) → Nat → α → List (Nat × α)
  | [], k, v => [(k, v)]
  | (k', v') :: t, k, v => if k' = k then (k, v) :: t else (k', v') :: insertA t k v

theorem lookupA_insertA {α : Type} (d : List (Nat × α)) (k : Nat) (v : α) (j : Nat) :
    lookupA (insertA d k v) j = if j = k then some v else lookupA d j := by
  induction d with
  | nil =>
    simp only [insertA, lookupA]
    split_ifs with h1 h2 h2 <;> first | rfl | omega
  | cons hd t ih =>
    obtain ⟨k', v'⟩ := hd
    simp only [insertA]
    by_cases hk : k' = k
    · subst hk
      simp only [if_pos rfl, lookupA]
      split_ifs with h1 h2 h2 <;> first | rfl | omega
    · rw [if_neg hk]
      simp only [lookupA]
      by_cases hj : k' = j
      · rw [if_pos hj, if_pos hj, if_neg (fun h : j = k => hk (hj.trans h))]
      · rw [if_neg hj, if_neg hj, ih]

theorem lookupA_filter {α : Type} (d : List (Nat × α)) (p : Nat → Bool) (j : Nat) :
    lookupA (d.filter (fun q => p q.1)) j = if p j then lookupA d j else none := by
  induction d with
  | nil => by_cases h : p j <;> simp [lookupA, h]
  | cons hd t ih =>
    obtain ⟨k, v⟩ := hd
    by_cases hk : k = j
    · subst hk
      by_cases hp : p k <;> simp [List.filter, hp, lookupA, ih]
    · by_cases hp : p k <;> by_cases hpj : p j <;>
        simp [List.filter, hp, hpj, lookupA, hk, ih]

/-- A certificate, restricted to the read-only view the consensus core uses
(`origin()`, `digest()`, `virtual_round()`, `virtual_parents()`). -/
structure Certificate where
  origin : Nat
  digest : Nat
  virtual_round : Nat
  virtual_parents : List Nat
deriving DecidableEq, Repr

/-- The committee: a finite list of (distinct) authority public keys, mirroring
the keys of `Committee.authorities`; `size` is `Committee::size()`. -/
structure Committee where
  authorities : List Nat
deriving DecidableEq, Repr

def Committee.size (c : Committee) : Nat := c.authorities.length

/-- One round slice of the DAG: authority ↦ (digest, certificate). -/
abbrev AuthMap := List (Nat × (Nat × Certificate))

/-- The virtual DAG: round ↦ (authority ↦ (digest, certificate)). -/
abbrev Dag := List (Nat × AuthMap)

/-- The virtual consensus state (`VirtualState` in `dolphin/virtual_state.rs`). -/
structure VirtualState where
  committee : Committee
  dag : Dag
  steady_authorities_sets : List (Nat × List Nat)
  fallback_authorities_sets : List (Nat × List Nat)
deriving DecidableEq, Repr

/-- `VirtualState::new`: round 0 holds the genesis certificate of every
authority; steady set for wave 1 holds the whole committee; fallback empty. -/
def VirtualState.new (committee : Committee) (genesis : List Certificate) : VirtualState :=
  { committee := committee
    dag := [(0, genesis.foldl (fun m x => insertA m x.origin (x.digest, x)) [])]
    steady_authorities_sets := [(1, committee.authorities)]
    fallback_authorities_sets := [] }

/-- The boolean admission check inside `VirtualState::try_add`: all virtual
parents are digests of round `R-1` certificates, and the certificate's origin
has an entry at round `R-1`. -/
def admissionCheck (s : VirtualState) (c : Certificate) : Bool :=
  let previous_round_certificates : List Nat :=
    match lookupA s.dag (c.virtual_round - 1) with
    | none => []
    | some m => m.map (fun q => q.2.1)
  c.virtual_parents.all (fun x => previous_round_certificates.contains x)
    && (match lookupA s.dag (c.virtual_round - 1) with
        | none => false
        | some m => m.any (fun q => q.1 == c.origin))

/-- `VirtualState::try_add`: returns the success status together with the
updated state.  On success the certificate is inserted at
`dag[virtual_round][origin]` (the round map is created when absent, mirroring
`entry(round).or_insert_with(HashMap::new)`). -/
def try_add (s : VirtualState) (c : Certificate) : Bool × VirtualState :=
  if c.virtual_round = 0 then (false, s)
  else if admissionCheck s c then
    (true,
      { s with
        dag := insertA s.dag c.virtual_round
          (insertA ((lookupA s.dag c.virtual_round).getD []) c.origin (c.digest, c)) })
  else (false, s)

/-- `VirtualState::cleanup`: retain DAG rounds strictly above the last
committed round and authority-set waves strictly above its wave. -/
def cleanup (s : VirtualState) (last_committed_round : Nat) : VirtualState :=
  let last_committed_wave := (last_committed_round + 1) / 2
  { s with
    dag := s.dag.filter (fun q => decide (last_committed_round < q.1))
    steady_authorities_sets :=
      s.steady_authorities_sets.filter (fun q => decide (last_committed_wave < q.1))
    fallback_authorities_sets :=
      s.fallback_authorities_sets.filter (fun q => decide (last_committed_wave < q.1)) }

/-- Insertion sort step for the sorted authority key list (`keys.sort()`). -/
def insertSorted (a : Nat) : List Nat → List Nat
  | [] => [a]
  | b :: t => if a ≤ b then a :: b :: t else b :: insertSorted a t

/-- The committee keys in ascending order (`keys.sort()` in both elections). -/
def sortKeys (l : List Nat) : List Nat := l.foldr insertSorted []

theorem length_insertSorted (a : Nat) (l : List Nat) :
    (insertSorted a l).length = l.length + 1 := by
  induction l with
  | nil => rfl
  | cons b t ih => by_cases h : a ≤ b <;> simp [insertSorted, h, ih]

theorem length_sortKeys (l : List Nat) : (sortKeys l).length = l.length := by
  induction l with
  | nil => rfl
  | cons b t ih => simp [sortKeys, length_insertSorted, List.foldr] at ih ⊢; omega

/-- The `keys[i % size]` indexing shared by both elections.  The result is
`none` exactly when the Rust expression panics: remainder by a zero committee
size, or an out-of-range index. -/
def electLeader (keys : List Nat) (n i : Nat) : Option Nat :=
  if n = 0 then none else keys[i % n]?

/-- `VirtualState::steady_leader` in non-test mode (`seed = (round + 1) / 2`).
The outer `Option` models panic freedom (`none` = the Rust code panics); the
inner `Option` is the function's return value. -/
def steady_leader (s : VirtualState) (round : Nat) : Option (Option (Nat × Certificate)) :=
  let seed := (round + 1) / 2
  let keys := sortKeys s.committee.authorities
  (electLeader keys s.committee.size seed).map
    (fun leader => (lookupA s.dag round).bind (fun m => lookupA m leader))

/-- `VirtualState::fallback_leader` in non-test mode (`coin = (round + 1) / 4`). -/
def fallback_leader (s : VirtualState) (round : Nat) : Option (Option (Nat × Certificate)) :=
  let coin := (round + 1) / 4
  let keys := sortKeys s.committee.authorities
  (electLeader keys s.committee.size coin).map
    (fun leader => (lookupA s.dag round).bind (fun m => lookupA m leader))

/-- Slot lookup in the DAG: `dag[round][authority]`. -/
def dagGet (s : VirtualState) (r a : Nat) : Option (Nat × Certificate) :=
  (lookupA s.dag r).bind (fun m => lookupA m a)

/-- `p` is the digest of some certificate stored in the round slice `m`. -/
def hasDigest (m : AuthMap) (p : Nat) : Prop := ∃ q ∈ m, q.2.1 = p

/-- Authority `a` has a certificate stored in the round slice `m`. -/
def hasAuthority (m : AuthMap) (a : Nat) : Prop := ∃ q ∈ m, q.1 = a

instance (m : AuthMap) (p : Nat) : Decidable (hasDigest m p) := by
  unfold hasDigest; infer_instance

instance (m : AuthMap) (a : Nat) : Decidable (hasAuthority m a) := by
  unfold hasAuthority; infer_instance

/-- The admission predicate of §4.1, as a proposition. -/
def admissionProp (s : VirtualState) (c : Certificate) : Prop :=
  1 ≤ c.virtual_round ∧
  ∃ m, lookupA s.dag (c.virtual_round - 1) = some m ∧
    (∀ p ∈ c.virtual_parents, hasDigest m p) ∧ hasAuthority m c.origin

theorem containsNat_iff (l : List Nat) (a : Nat) : l.contains a = true ↔ a ∈ l := by
  induction l with
  | nil => simp
  | cons b t ih => simp

theorem admissionCheck_none (s : VirtualState) (c : Certificate)
    (hm : lookupA s.dag (c.virtual_round - 1) = none) : admissionCheck s c = false := by
  simp only [admissionCheck, hm, Bool.and_false]

theorem admissionCheck_some (s : VirtualState) (c : Certificate) (m : AuthMap)
    (hm : lookupA s.dag (c.virtual_round - 1) = some m) :
    (admissionCheck s c = true ↔
      (∀ p ∈ c.virtual_parents, hasDigest m p) ∧ hasAuthority m c.origin) := by
  simp only [admissionCheck, hm, Bool.and_eq_true, List.all_eq_true, List.any_eq_true,
    beq_iff_eq, containsNat_iff, List.mem_map, hasDigest, hasAuthority]

theorem try_add_true_iff (s : VirtualState) (c : Certificate) :
    (try_add s c).1 = true ↔ admissionProp s c := by
  by_cases h0 : c.virtual_round = 0
  · unfold try_add
    rw [if_pos h0]
    simp [admissionProp, h0]
  · unfold try_add
    rw [if_neg h0]
    rcases Bool.eq_false_or_eq_true (admissionCheck s c) with hc | hc
    · rw [if_pos hc]
      constructor
      · intro _
        cases hmm : lookupA s.dag (c.virtual_round - 1) with
        | none =>
          rw [admissionCheck_none s c hmm] at hc
          exact absurd hc (by simp)
        | some m =>
          exact ⟨by omega, m, hmm, (admissionCheck_some s c m hmm).mp hc⟩
      · intro _; rfl
    · rw [if_neg (by simp [hc] : ¬ admissionCheck s c = true)]
      constructor
      · intro hf; exact absurd hf (by simp)
      · rintro ⟨h1, m, hm, hrest⟩
        have hcc := (admissionCheck_some s c m hm).mpr hrest
        rw [hcc] at hc
        exact absurd hc (by simp)

/-- The updated state produced by a successful `try_add`. -/
def addState (s : VirtualState) (c : Certificate) : VirtualState :=
  { s with
    dag := insertA s.dag c.virtual_round
      (insertA ((lookupA s.dag c.virtual_round).getD []) c.origin (c.digest, c)) }

theorem try_add_snd_true (s : VirtualState) (c : Certificate)
    (h : (try_add s c).1 = true) : (try_add s c).2 = addState s c := by
  have h0 : ¬ c.virtual_round = 0 := by
    intro h0
    unfold try_add at h
    rw [if_pos h0] at h
    exact absurd h (by simp)
  have hc : admissionCheck s c = true := by
    rcases Bool.eq_false_or_eq_true (admissionCheck s c) with hc | hc
    · exact hc
    · unfold try_add at h
      rw [if_neg h0, if_neg (by simp [hc] : ¬ admissionCheck s c = true)] at h
      exact absurd h (by simp)
  unfold try_add
  rw [if_neg h0, if_pos hc]
  rfl

theorem try_add_snd_false (s : VirtualState) (c : Certificate)
    (h : (try_add s c).1 = false) : (try_add s c).2 = s := by
  by_cases h0 : c.virtual_round = 0
  · unfold try_add
    rw [if_pos h0]
  · rcases Bool.eq_false_or_eq_true (admissionCheck s c) with hc | hc
    · unfold try_add at h
      rw [if_neg h0, if_pos hc] at h
      exact absurd h (by simp)
    · unfold try_add
      rw [if_neg h0, if_neg (by simp [hc] : ¬ admissionCheck s c = true)]

theorem cleanup_dag_lookup (s : VirtualState) (r R : Nat) :
    lookupA (cleanup s r).dag R = if r < R then lookupA s.dag R else none := by
  have h := lookupA_filter s.dag (fun x => decide (r < x)) R
  simp only [cleanup]
  rw [h]
  by_cases hr : r < R <;> simp [hr]

theorem cleanup_steady_lookup (s : VirtualState) (r W : Nat) :
    lookupA (cleanup s r).steady_authorities_sets W =
      if (r + 1) / 2 < W then lookupA s.steady_authorities_sets W else none := by
  have h := lookupA_filter s.steady_authorities_sets (fun x => decide ((r + 1) / 2 < x)) W
  simp only [cleanup]
  rw [h]
  by_cases hr : (r + 1) / 2 < W <;> simp [hr]

theorem cleanup_fallback_lookup (s : VirtualState) (r W : Nat) :
    lookupA (cleanup s r).fallback_authorities_sets W =
      if (r + 1) / 2 < W then lookupA s.fallback_authorities_sets W else none := by
  have h := lookupA_filter s.fallback_authorities_sets (fun x => decide ((r + 1) / 2 < x)) W
  simp only [cleanup]
  rw [h]
  by_cases hr : (r + 1) / 2 < W <;> simp [hr]

theorem hasAuthority_insertA (m : AuthMap) (k : Nat) (v : Nat × Certificate) (a : Nat)
    (h : hasAuthority m a) : hasAuthority (insertA m k v) a := by
  induction m with
  | nil => simp [hasAuthority] at h
  | cons hd t ih =>
    obtain ⟨k', v'⟩ := hd
    simp only [insertA]
    rcases h with ⟨q, hq, hqa⟩
    rcases List.mem_cons.mp hq with hq | hq
    · by_cases hk : k' = k
      · rw [if_pos hk]
        subst hq
        exact ⟨(k, v), List.mem_cons_self _ _, by simp at hqa ⊢; omega⟩
      · rw [if_neg hk]
        exact ⟨(k', v'), List.mem_cons_self _ _, hq ▸ hqa⟩
    · by_cases hk : k' = k
      · rw [if_pos hk]
        exact ⟨q, List.mem_cons_of_mem _ hq, hqa⟩
      · rw [if_neg hk]
        rcases ih ⟨q, hq, hqa⟩ with ⟨q', hq', hqa'⟩
        exact ⟨q', List.mem_cons_of_mem _ hq', hqa'⟩

theorem hasDigest_insertA (m : AuthMap) (k : Nat) (v : Nat × Certificate) (p : Nat)
    (hv : lookupA m k = none ∨ lookupA m k = some v)
    (h : hasDigest m p) : hasDigest (insertA m k v) p := by
  induction m with
  | nil => simp [hasDigest] at h
  | cons hd t ih =>
    obtain ⟨k', v'⟩ := hd
    simp only [insertA]
    by_cases hk : k' = k
    · rw [if_pos hk]
      have hv' : v' = v := by
        subst hk
        simp only [lookupA, if_pos rfl] at hv
        rcases hv with hv | hv
        · exact absurd hv (by simp)
        · exact Option.some.injEq _ _ ▸ hv
      rcases h with ⟨q, hq, hqp⟩
      rcases List.mem_cons.mp hq with hq | hq
      · exact ⟨(k, v), List.mem_cons_self _ _, by subst hq; rw [← hv']; exact hqp⟩
      · exact ⟨q, List.mem_cons_of_mem _ hq, hqp⟩
    · rw [if_neg hk]
      have hvt : lookupA t k = none ∨ lookupA t k = some v := by
        simpa only [lookupA, if_neg hk] using hv
      rcases h with ⟨q, hq, hqp⟩
      rcases List.mem_cons.mp hq with hq | hq
      · exact ⟨q, hq ▸ List.mem_cons_self _ _, hqp⟩
      · rcases ih hvt ⟨q, hq, hqp⟩ with ⟨q', hq', hqp'⟩
        exact ⟨q', List.mem_cons_of_mem _ hq', hqp'⟩

/-- The §3 invariant 1, exactly as the spec states it: every stored certificate
at a round `R + 1` has all its virtual parents stored at round `R` and its
origin present at round `R`. -/
def DagParentInvariantStrict (s : VirtualState) : Prop :=
  ∀ R m, lookupA s.dag (R + 1) = some m →
    ∀ a dc, lookupA m a = some dc →
      ∃ m', lookupA s.dag R = some m' ∧
        (∀ p ∈ dc.2.virtual_parents, hasDigest m' p) ∧ hasAuthority m' dc.2.origin

/-- The invariant weakened to certificates whose previous round is still
present in the DAG. -/
def DagParentInvariant (s : VirtualState) : Prop :=
  ∀ R m m', lookupA s.dag (R + 1) = some m → lookupA s.dag R = some m' →
    ∀ a dc, lookupA m a = some dc →
      (∀ p ∈ dc.2.virtual_parents, hasDigest m' p) ∧ hasAuthority m' dc.2.origin

/-- The set of rounds present in the DAG is an interval. -/
def GapFree (s : VirtualState) : Prop :=
  ∀ R₁ R₂ R, R₁ ≤ R → R ≤ R₂ →
    (lookupA s.dag R₁).isSome → (lookupA s.dag R₂).isSome → (lookupA s.dag R).isSome

/-- Adding `c` does not replace an existing `(round, origin)` slot holding a
different certificate. -/
def NoClobber (s : VirtualState) (c : Certificate) : Prop :=
  ∀ dc, dagGet s c.virtual_round c.origin = some dc → dc = (c.digest, c)

/-- States reachable from `new` by arbitrary `try_add` and `cleanup` calls. -/
inductive Reachable (com : Committee) (gen : List Certificate) : VirtualState → Prop where
  | init : Reachable com gen (VirtualState.new com gen)
  | add (s : VirtualState) (c : Certificate) :
      Reachable com gen s → Reachable com gen (try_add s c).2
  | clean (s : VirtualState) (r : Nat) :
      Reachable com gen s → Reachable com gen (cleanup s r)

/-- States reachable from `new` by `try_add` and `cleanup` calls in which no
successful `try_add` overwrites an occupied slot with a different certificate. -/
inductive ReachableNC (com : Committee) (gen : List Certificate) : VirtualState → Prop where
  | init : ReachableNC com gen (VirtualState.new com gen)
  | add (s : VirtualState) (c : Certificate) :
      ReachableNC com gen s → NoClobber s c → ReachableNC com gen (try_add s c).2
  | clean (s : VirtualState) (r : Nat) :
      ReachableNC com gen s → ReachableNC com gen (cleanup s r)

theorem lookupA_new_dag (com : Committee) (gen : List Certificate) (j : Nat) :
    lookupA (VirtualState.new com gen).dag j =
      if 0 = j then some (gen.foldl (fun m x => insertA m x.origin (x.digest, x)) [])
      else none := by
  simp [VirtualState.new, lookupA]

theorem new_inv (com : Committee) (gen : List Certificate) :
    DagParentInvariant (VirtualState.new com gen) := by
  intro R m m' hm hm' a dc hdc
  rw [lookupA_new_dag, if_neg (by omega : ¬ (0 = R + 1))] at hm
  exact Option.noConfusion hm

theorem new_gapfree (com : Committee) (gen : List Certificate) :
    GapFree (VirtualState.new com gen) := by
  intro R₁ R₂ R h₁ h₂ hs₁ hs₂
  rw [lookupA_new_dag] at hs₁ ⊢
  by_cases e1 : 0 = R₁
  · have : R = 0 := by
      rw [lookupA_new_dag] at hs₂
      by_cases e2 : 0 = R₂
      · omega
      · rw [if_neg e2] at hs₂; exact absurd hs₂ (by simp)
    rw [if_pos (by omega)]
    rfl
  · rw [if_neg e1] at hs₁
    exact absurd hs₁ (by simp)

theorem inv_cleanup (s : VirtualState) (r : Nat) (h : DagParentInvariant s) :
    DagParentInvariant (cleanup s r) := by
  intro R m m' hm hm' a dc hdc
  rw [cleanup_dag_lookup] at hm hm'
  by_cases h1 : r < R + 1
  · rw [if_pos h1] at hm
    by_cases h2 : r < R
    · rw [if_pos h2] at hm'
      exact h R m m' hm hm' a dc hdc
    · rw [if_neg h2] at hm'
      exact Option.noConfusion hm'
  · rw [if_neg h1] at hm
    exact Option.noConfusion hm

theorem gapfree_cleanup (s : VirtualState) (r : Nat) (h : GapFree s) :
    GapFree (cleanup s r) := by
  intro R₁ R₂ R h₁ h₂ hs₁ hs₂
  rw [cleanup_dag_lookup] at hs₁ hs₂ ⊢
  by_cases hr1 : r < R₁
  · rw [if_pos hr1] at hs₁
    by_cases hr2 : r < R₂
    · rw [if_pos hr2] at hs₂
      rw [if_pos (by omega : r < R)]
      exact h R₁ R₂ R h₁ h₂ hs₁ hs₂
    · rw [if_neg hr2] at hs₂
      exact absurd hs₂ (by simp)
  · rw [if_neg hr1] at hs₁
    exact absurd hs₁ (by simp)

theorem addState_dag_lookup (s : VirtualState) (c : Certificate) (j : Nat) :
    lookupA (addState s c).dag j =
      if j = c.virtual_round
      then some (insertA ((lookupA s.dag c.virtual_round).getD []) c.origin (c.digest, c))
      else lookupA s.dag j :=
  lookupA_insertA s.dag c.virtual_round _ j

theorem inv_add (s : VirtualState) (c : Certificate) (hInv : DagParentInvariant s)
    (hGap : GapFree s) (hNC : NoClobber s c) : DagParentInvariant (try_add s c).2 := by
  rcases Bool.eq_false_or_eq_true (try_add s c).1 with ht | ht
  case inr => rw [try_add_snd_false s c ht]; exact hInv
  rw [try_add_snd_true s c ht]
  obtain ⟨h1, mp, hmp, hpar, hauth⟩ := (try_add_true_iff s c).mp ht
  intro R m m' hm hm' a dc hdc
  rw [addState_dag_lookup] at hm hm'
  by_cases e1 : R + 1 = c.virtual_round <;> by_cases e2 : R = c.virtual_round
  · omega
  · -- the new round slice: R + 1 = virtual_round, previous slice unchanged
    rw [if_pos e1] at hm
    rw [if_neg e2] at hm'
    have hmR : c.virtual_round - 1 = R := by omega
    rw [hmR] at hmp
    have hmpm' : mp = m' := by
      rw [hmp] at hm'
      exact Option.some.inj hm'
    have hmm : m = insertA ((lookupA s.dag c.virtual_round).getD []) c.origin (c.digest, c) :=
      (Option.some.inj hm).symm
    rw [hmm, lookupA_insertA] at hdc
    by_cases ha : a = c.origin
    · rw [if_pos ha] at hdc
      have hdceq : dc = (c.digest, c) := (Option.some.inj hdc).symm
      rw [hdceq]
      exact ⟨fun p hp => hmpm' ▸ hpar p hp, hmpm' ▸ hauth⟩
    · rw [if_neg ha] at hdc
      cases hR0 : lookupA s.dag c.virtual_round with
      | none => rw [hR0] at hdc; exact absurd hdc (by simp [lookupA])
      | some mOld =>
        rw [hR0] at hdc
        simp only [Option.getD_some] at hdc
        exact hInv R mOld m' (e1 ▸ hR0) hm' a dc hdc
  · -- the slice above the new round: its previous slice gained an entry
    rw [if_neg e1] at hm
    rw [if_pos e2] at hm'
    have hprev : (lookupA s.dag (c.virtual_round - 1)).isSome := by rw [hmp]; rfl
    have hcur : (lookupA s.dag c.virtual_round).isSome := by
      apply hGap (c.virtual_round - 1) (R + 1) c.virtual_round (by omega) (by omega) hprev
      rw [hm]; rfl
    obtain ⟨mOld, hOld⟩ := Option.isSome_iff_exists.mp hcur
    have hm'eq : m' = insertA mOld c.origin (c.digest, c) := by
      rw [hOld] at hm'
      simp only [Option.getD_some] at hm'
      exact (Option.some.inj hm').symm
    have hv : lookupA mOld c.origin = none ∨ lookupA mOld c.origin = some (c.digest, c) := by
      cases hy : lookupA mOld c.origin with
      | none => exact Or.inl rfl
      | some y =>
        right
        have hdg : dagGet s c.virtual_round c.origin = some y := by
          simp [dagGet, hOld, hy]
        rw [hNC y hdg]
    have hold := hInv R m mOld (e2 ▸ hm) (e2 ▸ hOld) a dc hdc
    rw [hm'eq]
    exact ⟨fun p hp => hasDigest_insertA mOld c.origin (c.digest, c) p hv (hold.1 p hp),
      hasAuthority_insertA mOld c.origin (c.digest, c) dc.2.origin hold.2⟩
  · -- untouched slices
    rw [if_neg e1] at hm
    rw [if_neg e2] at hm'
    exact hInv R m m' hm hm' a dc hdc

theorem gapfree_add (s : VirtualState) (c : Certificate) (hGap : GapFree s) :
    GapFree (try_add s c).2 := by
  rcases Bool.eq_false_or_eq_true (try_add s c).1 with ht | ht
  case inr => rw [try_add_snd_false s c ht]; exact hGap
  rw [try_add_snd_true s c ht]
  obtain ⟨h1, mp, hmp, hpar, hauth⟩ := (try_add_true_iff s c).mp ht
  have hprev : (lookupA s.dag (c.virtual_round - 1)).isSome := by rw [hmp]; rfl
  intro R₁ R₂ R hle1 hle2 hs₁ hs₂
  rw [addState_dag_lookup] at hs₁ hs₂ ⊢
  by_cases eR : R = c.virtual_round
  · rw [if_pos eR]; rfl
  · rw [if_neg eR]
    by_cases e1 : R₁ = c.virtual_round <;> by_cases e2 : R₂ = c.virtual_round
    · omega
    · rw [if_neg e2] at hs₂
      exact hGap (c.virtual_round - 1) R₂ R (by omega) hle2 hprev hs₂
    · rw [if_neg e1] at hs₁
      exact hGap R₁ (c.virtual_round - 1) R hle1 (by omega) hs₁ hprev
    · rw [if_neg e1] at hs₁
      rw [if_neg e2] at hs₂
      exact hGap R₁ R₂ R hle1 hle2 hs₁ hs₂

theorem reachableNC_invariant (com : Committee) (gen : List Certificate) (s : VirtualState)
    (h : ReachableNC com gen s) : DagParentInvariant s ∧ GapFree s := by
  induction h with
  | init => exact ⟨new_inv com gen, new_gapfree com gen⟩
  | add s c hr hnc ih => exact ⟨inv_add s c ih.1 ih.2 hnc, gapfree_add s c ih.2⟩
  | clean s r hr ih => exact ⟨inv_cleanup s r ih.1, gapfree_cleanup s r ih.2⟩

/-!
Worker ingress multiplexer (`handle_worker_channel` in `rust/worker/src/net.rs`).

The handler is a `select!` loop over two event sources: inbound frames from the
transport and completed reply futures from a `FuturesOrdered` queue.  We embed
it as a small-step machine over explicit events:

* `Ev.recv m` — an inbound frame deserializes to `m`; the handler forwards the
  wrapped command to the backend channel chosen by the dispatch match and
  pushes one reply future onto the `FuturesOrdered` queue (immediately ready
  with the default frame for non-await variants, waiting on the command's
  reply slot for `Query`).
* `Ev.resolve tag r` — the backend fills (`some v`) or drops (`none`) the
  reply slot of the pending `Query` tagged `tag`, turning its future ready
  with the serialized response or the `NOTFOUND` frame.
* `Ev.emit` — `responses_ordered.select_next_some()` yields the head future
  (only possible once the head is ready — `FuturesOrdered` yields strictly in
  push order) and the handler writes the frame to the transport.

Tags are ghost indices (the position of the message in arrival order); they
carry no runtime information and do not influence the dynamics.
-/

/-- The `WorkerMessage` variants the dispatch match distinguishes: `Query`,
`Synchronize`, and everything else (`Batch`, …) in the `_` arm. -/
inductive Msg where
  | query (q : Nat)
  | synchronize (x : Nat)
  | other (x : Nat)
deriving DecidableEq, Repr

/-- An outbound frame: the `"OK"` ack, the `"NOTFOUND"` frame, or a serialized
response message. -/
inductive Frame where
  | ok
  | notfound
  | respFrame (r : Nat)
deriving DecidableEq, Repr

/-- The backend channel a command is forwarded to. -/
inductive Chan where
  | worker
  | sync
deriving DecidableEq, Repr

/-- The dispatch match of `handle_worker_channel`:
`(must_wait, on_none, output_channel)` per message variant. -/
def dispatch : Msg → Bool × Frame × Chan
  | .query _ => (true, .notfound, .worker)
  | .synchronize _ => (false, .ok, .sync)
  | .other _ => (false, .ok, .worker)

/-- A queued reply future: ready with a frame, or waiting on the reply slot of
the query tagged `tag`. -/
inductive Slot where
  | ready (tag : Nat) (f : Frame)
  | waiting (tag : Nat)
deriving DecidableEq, Repr

def Slot.tag : Slot → Nat
  | .ready t _ => t
  | .waiting t => t

/-- Per-connection handler state: messages received (in order), the
`FuturesOrdered` queue (in push order), frames written to the transport (in
order, tagged by the request each reply answers), and the commands forwarded
to each backend channel. -/
structure HState where
  received : List Msg
  pending : List Slot
  emitted : List (Nat × Frame)
  sentWorker : List Msg
  sentSync : List Msg
deriving DecidableEq, Repr

def initH : HState := ⟨[], [], [], [], []⟩

inductive Ev where
  | recv (m : Msg)
  | resolve (tag : Nat) (r : Option Nat)
  | emit
deriving DecidableEq, Repr

/-- Forward a command on the backend channel chosen by the dispatch match. -/
def forward (s : HState) (ch : Chan) (m : Msg) : HState :=
  match ch with
  | .worker => { s with sentWorker := s.sentWorker ++ [m] }
  | .sync => { s with sentSync := s.sentSync ++ [m] }

/-- Resolve the waiting slot with the given tag (the backend fills or drops
exactly one reply slot); `none` if no such slot is waiting. -/
def resolveSlot (tag : Nat) (r : Option Nat) : List Slot → Option (List Slot)
  | [] => none
  | .waiting t :: rest =>
    if t = tag then
      some (.ready t (match r with | none => .notfound | some v => .respFrame v) :: rest)
    else (resolveSlot tag r rest).map (fun p => .waiting t :: p)
  | .ready t f :: rest => (resolveSlot tag r rest).map (fun p => .ready t f :: p)

/-- One step of the handler loop; `none` marks an event that cannot occur
(emitting with no ready head, resolving a tag that is not waiting). -/
def step (s : HState) : Ev → Option HState
  | .recv m =>
    let (mustWait, onNone, ch) := dispatch m
    let tag := s.received.length
    let slot := if mustWait then Slot.waiting tag else Slot.ready tag onNone
    some { forward s ch m with
           received := s.received ++ [m]
           pending := s.pending ++ [slot] }
  | .resolve t r => (resolveSlot t r s.pending).map (fun p => { s with pending := p })
  | .emit =>
    match s.pending with
    | .ready t f :: rest =>
      some { s with pending := rest, emitted := s.emitted ++ [(t, f)] }
    | _ => none

/-- Run the handler over a whole event trace. -/
def runTrace (evs : List Ev) : Option HState := evs.foldlM step initH

/-- Ghost tags of all replies, emitted then still queued, in order. -/
def tagList (s : HState) : List Nat := s.emitted.map Prod.fst ++ s.pending.map Slot.tag


theorem resolveSlot_tags (tag : Nat) (r : Option Nat) :
    ∀ p p', resolveSlot tag r p = some p' → p'.map Slot.tag = p.map Slot.tag := by
  intro p
  induction p with
  | nil => intro p' h; exact Option.noConfusion h
  | cons hd rest ih =>
    intro p' h
    cases hd with
    | waiting t =>
      by_cases ht : t = tag
      · simp only [resolveSlot, if_pos ht] at h
        rw [← Option.some.inj h]
        simp [Slot.tag]
      · simp only [resolveSlot, if_neg ht] at h
        cases hr : resolveSlot tag r rest with
        | none => rw [hr] at h; exact Option.noConfusion h
        | some p'' =>
          rw [hr] at h
          simp only [Option.map_some'] at h
          rw [← Option.some.inj h]
          simp [Slot.tag, ih p'' hr]
    | ready t f =>
      simp only [resolveSlot] at h
      cases hr : resolveSlot tag r rest with
      | none => rw [hr] at h; exact Option.noConfusion h
      | some p'' =>
        rw [hr] at h
        simp only [Option.map_some'] at h
        rw [← Option.some.inj h]
        simp [Slot.tag, ih p'' hr]

theorem step_tags (s : HState) (e : Ev) (s' : HState) (h : step s e = some s')
    (hI : tagList s = List.range s.received.length) :
    tagList s' = List.range s'.received.length := by
  cases e with
  | recv m =>
    cases m with
    | query q =>
      have hs : step s (Ev.recv (Msg.query q)) =
          some { s with received := s.received ++ [Msg.query q],
                        pending := s.pending ++ [Slot.waiting s.received.length],
                        sentWorker := s.sentWorker ++ [Msg.query q] } := rfl
      rw [hs] at h
      rw [← Option.some.inj h]
      show List.map Prod.fst s.emitted
          ++ List.map Slot.tag (s.pending ++ [Slot.waiting s.received.length])
        = List.range (s.received ++ [Msg.query q]).length
      rw [List.map_append, ← List.append_assoc]
      rw [tagList] at hI
      rw [hI]
      simp [Slot.tag, List.range_succ]
    | synchronize x =>
      have hs : step s (Ev.recv (Msg.synchronize x)) =
          some { s with received := s.received ++ [Msg.synchronize x],
                        pending := s.pending ++ [Slot.ready s.received.length Frame.ok],
                        sentSync := s.sentSync ++ [Msg.synchronize x] } := rfl
      rw [hs] at h
      rw [← Option.some.inj h]
      show List.map Prod.fst s.emitted
          ++ List.map Slot.tag (s.pending ++ [Slot.ready s.received.length Frame.ok])
        = List.range (s.received ++ [Msg.synchronize x]).length
      rw [List.map_append, ← List.append_assoc]
      rw [tagList] at hI
      rw [hI]
      simp [Slot.tag, List.range_succ]
    | other b =>
      have hs : step s (Ev.recv (Msg.other b)) =
          some { s with received := s.received ++ [Msg.other b],
                        pending := s.pending ++ [Slot.ready s.received.length Frame.ok],
                        sentWorker := s.sentWorker ++ [Msg.other b] } := rfl
      rw [hs] at h
      rw [← Option.some.inj h]
      show List.map Prod.fst s.emitted
          ++ List.map Slot.tag (s.pending ++ [Slot.ready s.received.length Frame.ok])
        = List.range (s.received ++ [Msg.other b]).length
      rw [List.map_append, ← List.append_assoc]
      rw [tagList] at hI
      rw [hI]
      simp [Slot.tag, List.range_succ]
  | resolve t r =>
    simp only [step] at h
    cases hr : resolveSlot t r s.pending with
    | none => rw [hr] at h; exact Option.noConfusion h
    | some p =>
      rw [hr] at h
      simp only [Option.map_some'] at h
      rw [← Option.some.inj h]
      show List.map Prod.fst s.emitted ++ List.map Slot.tag p
        = List.range s.received.length
      rw [resolveSlot_tags t r s.pending p hr]
      rw [tagList] at hI
      exact hI
  | emit =>
    cases hp : s.pending with
    | nil =>
      have hx : step s Ev.emit = none := by simp [step, hp]
      rw [hx] at h
      exact Option.noConfusion h
    | cons hd rest =>
      cases hd with
      | waiting t =>
        have hx : step s Ev.emit = none := by simp [step, hp]
        rw [hx] at h
        exact Option.noConfusion h
      | ready t f =>
        have hx : step s Ev.emit =
            some { s with pending := rest, emitted := s.emitted ++ [(t, f)] } := by
          simp [step, hp]
        rw [hx] at h
        rw [← Option.some.inj h]
        show List.map Prod.fst (s.emitted ++ [(t, f)]) ++ List.map Slot.tag rest
          = List.range s.received.length
        rw [tagList, hp] at hI
        simp only [List.map_cons, Slot.tag] at hI
        rw [List.map_append, List.append_assoc]
        simpa using hI

theorem runFrom_tags (evs : List Ev) :
    ∀ (s s' : HState), List.foldlM step s evs = some s' →
      tagList s = List.range s.received.length →
      tagList s' = List.range s'.received.length := by
  induction evs with
  | nil =>
    intro s s' h hI
    simp only [List.foldlM] at h
    rw [← Option.some.inj h]
    exact hI
  | cons e t ih =>
    intro s s' h hI
    simp only [List.foldlM] at h
    cases hstep : step s e with
    | none => rw [hstep] at h; exact Option.noConfusion h
    | some s₁ =>
      rw [hstep] at h
      have h' : List.foldlM step s₁ t = some s' := h
      exact ih s₁ s' h' (step_tags s e s₁ hstep hI)

/-- Claim C3: `try_add(C)` returns `true` iff all four admission predicates
hold: `virtual_round ≥ 1`, the DAG has an entry at round `R-1`, every digest in
`virtual_parents` is the digest of some certificate stored at round `R-1`, and
the origin has an entry at round `R-1` (hence `try_add` is always `false` at
`virtual_round = 0`). -/
theorem tryAdd_iff_admission (s : VirtualState) (c : Certificate) :
    (try_add s c).1 = true ↔
      (1 ≤ c.virtual_round
       ∧ (lookupA s.dag (c.virtual_round - 1)).isSome
       ∧ (∀ p ∈ c.virtual_parents,
            ∃ m, lookupA s.dag (c.virtual_round - 1) = some m ∧ hasDigest m p)
       ∧ (∃ m, lookupA s.dag (c.virtual_round - 1) = some m ∧ hasAuthority m c.origin)) := by
  rw [try_add_true_iff]
  unfold admissionProp
  constructor
  · rintro ⟨h1, m, hm, hpar, hauth⟩
    exact ⟨h1, by rw [hm]; rfl, fun p hp => ⟨m, hm, hpar p hp⟩, m, hm, hauth⟩
  · rintro ⟨h1, hsome, hpar, m, hm, hauth⟩
    refine ⟨h1, m, hm, fun p hp => ?_, hauth⟩
    obtain ⟨m', hm', hd⟩ := hpar p hp
    rw [hm] at hm'
    rw [Option.some.inj hm']
    exact hd

/-- Claim C8: `try_add` changes at most the slot
`dag[virtual_round][origin]`; on success that slot holds `(digest, cert)` while
every other slot, every other round slice, the authority-set maps and the
committee are unchanged; on failure the whole state is unchanged. -/
theorem tryAdd_frame_effect (s : VirtualState) (c : Certificate) :
    ((try_add s c).1 = true →
        dagGet (try_add s c).2 c.virtual_round c.origin = some (c.digest, c)
      ∧ (∀ a, a ≠ c.origin →
          dagGet (try_add s c).2 c.virtual_round a = dagGet s c.virtual_round a)
      ∧ (∀ R, R ≠ c.virtual_round → lookupA (try_add s c).2.dag R = lookupA s.dag R)
      ∧ (try_add s c).2.steady_authorities_sets = s.steady_authorities_sets
      ∧ (try_add s c).2.fallback_authorities_sets = s.fallback_authorities_sets
      ∧ (try_add s c).2.committee = s.committee)
    ∧ ((try_add s c).1 = false → (try_add s c).2 = s) := by
  constructor
  · intro ht
    rw [try_add_snd_true s c ht]
    refine ⟨?_, ?_, ?_, rfl, rfl, rfl⟩
    · unfold dagGet
      rw [addState_dag_lookup, if_pos rfl]
      show lookupA (insertA ((lookupA s.dag c.virtual_round).getD []) c.origin (c.digest, c))
          c.origin = some (c.digest, c)
      rw [lookupA_insertA, if_pos rfl]
    · intro a ha
      unfold dagGet
      rw [addState_dag_lookup, if_pos rfl]
      show lookupA (insertA ((lookupA s.dag c.virtual_round).getD []) c.origin (c.digest, c)) a
          = (lookupA s.dag c.virtual_round).bind (fun m => lookupA m a)
      rw [lookupA_insertA, if_neg ha]
      cases hR : lookupA s.dag c.virtual_round with
      | none => simp [lookupA]
      | some mOld => simp
    · intro R hR
      rw [addState_dag_lookup, if_neg hR]
  · exact try_add_snd_false s c

/-- Claim C7: after `cleanup(r₀)` no round `≤ r₀` and no wave `≤ (r₀+1)/2` is
present, while strictly later rounds and waves are retained unchanged. -/
theorem cleanup_boundary (s : VirtualState) (r₀ : Nat) :
    (∀ R, R ≤ r₀ → lookupA (cleanup s r₀).dag R = none)
  ∧ (∀ W, W ≤ (r₀ + 1) / 2 →
      lookupA (cleanup s r₀).steady_authorities_sets W = none
      ∧ lookupA (cleanup s r₀).fallback_authorities_sets W = none)
  ∧ (∀ R, r₀ < R → lookupA (cleanup s r₀).dag R = lookupA s.dag R)
  ∧ (∀ W, (r₀ + 1) / 2 < W →
      lookupA (cleanup s r₀).steady_authorities_sets W = lookupA s.steady_authorities_sets W
      ∧ lookupA (cleanup s r₀).fallback_authorities_sets W
          = lookupA s.fallback_authorities_sets W) := by
  refine ⟨fun R hR => ?_, fun W hW => ⟨?_, ?_⟩, fun R hR => ?_, fun W hW => ⟨?_, ?_⟩⟩
  · rw [cleanup_dag_lookup, if_neg (by omega)]
  · rw [cleanup_steady_lookup, if_neg (by omega)]
  · rw [cleanup_fallback_lookup, if_neg (by omega)]
  · rw [cleanup_dag_lookup, if_pos hR]
  · rw [cleanup_steady_lookup, if_pos hW]
  · rw [cleanup_fallback_lookup, if_pos hW]

theorem filter_lt_absorb {α : Type} (a b : Nat) (hab : a ≤ b) (l : List (Nat × α)) :
    (l.filter (fun q => decide (b < q.1))).filter (fun q => decide (a < q.1))
      = l.filter (fun q => decide (b < q.1)) := by
  apply List.filter_eq_self.mpr
  intro x hx
  have hb : b < x.1 := of_decide_eq_true (List.mem_filter.mp hx).2
  exact decide_eq_true (by omega)

/-- Claim C9: `cleanup` is idempotent, and running `cleanup(r₀)` after
`cleanup(r₁)` with `r₀ ≤ r₁` changes nothing (no resurrection). -/
theorem cleanup_idempotent_monotone (s : VirtualState) (r₀ r₁ : Nat) (h : r₀ ≤ r₁) :
    cleanup (cleanup s r₀) r₀ = cleanup s r₀ ∧ cleanup (cleanup s r₁) r₀ = cleanup s r₁ := by
  obtain ⟨com, dag, st, fb⟩ := s
  have hw : (r₀ + 1) / 2 ≤ (r₁ + 1) / 2 := Nat.div_le_div_right (by omega)
  constructor
  · simp only [cleanup, VirtualState.mk.injEq]
    exact ⟨trivial, filter_lt_absorb r₀ r₀ le_rfl dag,
      filter_lt_absorb ((r₀ + 1) / 2) ((r₀ + 1) / 2) le_rfl st,
      filter_lt_absorb ((r₀ + 1) / 2) ((r₀ + 1) / 2) le_rfl fb⟩
  · simp only [cleanup, VirtualState.mk.injEq]
    exact ⟨trivial, filter_lt_absorb r₀ r₁ h dag,
      filter_lt_absorb ((r₀ + 1) / 2) ((r₁ + 1) / 2) hw st,
      filter_lt_absorb ((r₀ + 1) / 2) ((r₁ + 1) / 2) hw fb⟩

theorem elect_formula_aux (s : VirtualState) (R i : Nat) (hn : s.committee.size ≠ 0) :
    ∃ ls, (sortKeys s.committee.authorities)[i % s.committee.size]? = some ls
      ∧ (electLeader (sortKeys s.committee.authorities) s.committee.size i).map
          (fun leader => (lookupA s.dag R).bind (fun m => lookupA m leader))
        = some ((lookupA s.dag R).bind (fun m => lookupA m ls))
      ∧ ((∃ v, (electLeader (sortKeys s.committee.authorities) s.committee.size i).map
              (fun leader => (lookupA s.dag R).bind (fun m => lookupA m leader))
            = some (some v))
          ↔ ∃ m, lookupA s.dag R = some m ∧ (lookupA m ls).isSome) := by
  have hlt : i % s.committee.size < (sortKeys s.committee.authorities).length := by
    rw [length_sortKeys]
    exact Nat.mod_lt i (Nat.pos_of_ne_zero hn)
  obtain ⟨ls, hls⟩ : ∃ ls, (sortKeys s.committee.authorities)[i % s.committee.size]? = some ls := by
    rw [List.getElem?_eq_getElem hlt]
    exact ⟨_, rfl⟩
  have hel : electLeader (sortKeys s.committee.authorities) s.committee.size i = some ls := by
    rw [electLeader, if_neg hn]
    exact hls
  refine ⟨ls, hls, ?_, ?_⟩
  · rw [hel]
    rfl
  · rw [hel]
    constructor
    · rintro ⟨v, hv⟩
      simp only [Option.map_some'] at hv
      have hb := Option.some.inj hv
      cases hm : lookupA s.dag R with
      | none => rw [hm] at hb; exact absurd hb (by simp)
      | some m =>
        rw [hm] at hb
        simp only [Option.some_bind] at hb
        exact ⟨m, rfl, by rw [hb]; rfl⟩
    · rintro ⟨m, hm, hsome⟩
      obtain ⟨v, hv⟩ := Option.isSome_iff_exists.mp hsome
      exact ⟨v, by simp [hm, hv]⟩

/-- Scenario committee `{A, B, C, D}` with `A = 0, B = 1, C = 2, D = 3`
(already in ascending key order). -/
def comS2 : Committee := ⟨[0, 1, 2, 3]⟩

/-- Claim C6: in non-test mode, with `L` the sorted authority list,
`steady_leader(R)` elects `L[((R+1)/2) mod |L|]` and `fallback_leader(R)`
elects `L[((R+1)/4) mod |L|]`, each returning `Some` exactly when the elected
authority has a certificate stored at round `R`; for committee
`{A,B,C,D} = {0,1,2,3}` rounds 1–8 elect `B,B,C,C,D,D,A,A`. -/
theorem leader_election_formula (s : VirtualState) (R : Nat)
    (h : s.committee.authorities ≠ []) :
    (∃ ls, (sortKeys s.committee.authorities)[((R + 1) / 2) % s.committee.size]? = some ls
       ∧ steady_leader s R = some ((lookupA s.dag R).bind (fun m => lookupA m ls))
       ∧ ((∃ v, steady_leader s R = some (some v)) ↔
            ∃ m, lookupA s.dag R = some m ∧ (lookupA m ls).isSome))
  ∧ (∃ lf, (sortKeys s.committee.authorities)[((R + 1) / 4) % s.committee.size]? = some lf
       ∧ fallback_leader s R = some ((lookupA s.dag R).bind (fun m => lookupA m lf))
       ∧ ((∃ v, fallback_leader s R = some (some v)) ↔
            ∃ m, lookupA s.dag R = some m ∧ (lookupA m lf).isSome))
  ∧ ([1, 2, 3, 4, 5, 6, 7, 8].map
        (fun r => electLeader (sortKeys comS2.authorities) comS2.size ((r + 1) / 2))
      = [some 1, some 1, some 2, some 2, some 3, some 3, some 0, some 0]) := by
  have hn : s.committee.size ≠ 0 := fun h0 => h (List.length_eq_zero.mp h0)
  exact ⟨elect_formula_aux s R ((R + 1) / 2) hn, elect_formula_aux s R ((R + 1) / 4) hn,
    by decide⟩

/-- Claim C10: with a non-empty committee neither election can panic (the
elected index is strictly in bounds of the sorted key list); with an empty
committee both elections panic (remainder by zero) instead of returning `None`
(`none` in the outer `Option` marks the panic). -/
theorem leader_election_panic_safety (s : VirtualState) (R : Nat) :
    (s.committee.authorities ≠ [] →
        (steady_leader s R).isSome ∧ (fallback_leader s R).isSome
      ∧ ((R + 1) / 2) % s.committee.size < (sortKeys s.committee.authorities).length
      ∧ ((R + 1) / 4) % s.committee.size < (sortKeys s.committee.authorities).length)
  ∧ (s.committee.authorities = [] →
      steady_leader s R = none ∧ fallback_leader s R = none) := by
  constructor
  · intro h
    have hn : s.committee.size ≠ 0 := fun h0 => h (List.length_eq_zero.mp h0)
    obtain ⟨ls, hls, hsl, _⟩ := elect_formula_aux s R ((R + 1) / 2) hn
    obtain ⟨lf, hlf, hfl, _⟩ := elect_formula_aux s R ((R + 1) / 4) hn
    refine ⟨?_, ?_, ?_, ?_⟩
    · have hx : steady_leader s R = some ((lookupA s.dag R).bind (fun m => lookupA m ls)) := hsl
      rw [hx]
      rfl
    · have hx : fallback_leader s R
          = some ((lookupA s.dag R).bind (fun m => lookupA m lf)) := hfl
      rw [hx]
      rfl
    · rw [length_sortKeys]
      exact Nat.mod_lt _ (Nat.pos_of_ne_zero hn)
    · rw [length_sortKeys]
      exact Nat.mod_lt _ (Nat.pos_of_ne_zero hn)
  · intro h
    have hn : s.committee.size = 0 := by rw [Committee.size, h]; rfl
    constructor
    · simp [steady_leader, electLeader, hn]
    · simp [fallback_leader, electLeader, hn]

/-- Claim C4: on one worker-control connection, replies are emitted in exactly
the arrival order of their requests (the emitted ghost tags are `0, 1, 2, …`),
and any run that drains its reply queue has emitted exactly one frame per
received message — so a later message's ack is never sent before an earlier
query's reply, whatever the interleaving with backend resolutions. -/
theorem worker_replies_in_order (evs : List Ev) (s : HState)
    (h : runTrace evs = some s) :
    s.emitted.map Prod.fst = List.range s.emitted.length
  ∧ (s.pending = [] → s.emitted.length = s.received.length) := by
  have hI : tagList s = List.range s.received.length := by
    apply runFrom_tags evs initH s h
    rfl
  have e0 : s.emitted.map Prod.fst ++ s.pending.map Slot.tag
      = List.range s.received.length := hI
  have hlen : (s.emitted.map Prod.fst).length + (s.pending.map Slot.tag).length
      = s.received.length := by
    have := congrArg List.length e0
    simpa using this
  constructor
  · have e1 := congrArg (fun l => List.take (s.emitted.map Prod.fst).length l) e0
    simp only at e1
    rw [List.take_left] at e1
    rw [e1, List.take_range]
    have hle : (s.emitted.map Prod.fst).length ≤ s.received.length := by omega
    rw [Nat.min_eq_left (by simpa using hle)]
    simp
  · intro hp
    rw [hp] at hlen
    simpa using hlen

/-- Claim C5: the dispatch table of `handle_worker_channel`, end to end on the
trace machine: a `Query` is forwarded to the worker backend channel and its
reply is awaited (no frame can be emitted before its slot resolves), answering
with the serialized response when the slot is filled and `NOTFOUND` when it is
dropped; a `Synchronize` goes to the sync backend channel with an immediate
`OK` and no await; any other variant goes to the worker backend channel with an
immediate `OK` and no await. -/
theorem worker_dispatch_table (q x b v : Nat) :
    runTrace [Ev.recv (Msg.query q)]
      = some ⟨[Msg.query q], [Slot.waiting 0], [], [Msg.query q], []⟩
  ∧ runTrace [Ev.recv (Msg.query q), Ev.emit] = none
  ∧ runTrace [Ev.recv (Msg.query q), Ev.resolve 0 (some v), Ev.emit]
      = some ⟨[Msg.query q], [], [(0, Frame.respFrame v)], [Msg.query q], []⟩
  ∧ runTrace [Ev.recv (Msg.query q), Ev.resolve 0 none, Ev.emit]
      = some ⟨[Msg.query q], [], [(0, Frame.notfound)], [Msg.query q], []⟩
  ∧ runTrace [Ev.recv (Msg.synchronize x), Ev.emit]
      = some ⟨[Msg.synchronize x], [], [(0, Frame.ok)], [], [Msg.synchronize x]⟩
  ∧ runTrace [Ev.recv (Msg.other b), Ev.emit]
      = some ⟨[Msg.other b], [], [(0, Frame.ok)], [Msg.other b], []⟩ :=
  ⟨rfl, rfl, rfl, rfl, rfl, rfl⟩

/-- Scenario S6 trace: `Synchronize`, `Query`, `Batch`-like message; the sync
ack is written, then the backend resolves the query only after the third
message arrived, then the remaining two frames are written. -/
def evsS6 : List Ev :=
  [Ev.recv (Msg.synchronize 5), Ev.recv (Msg.query 7), Ev.recv (Msg.other 9),
   Ev.emit, Ev.resolve 1 (some 42), Ev.emit, Ev.emit]

def hstateS6 : HState := (runTrace evsS6).getD initH

theorem worker_replies_in_order_witness :
    hstateS6.emitted.map Prod.fst = List.range hstateS6.emitted.length
  ∧ (hstateS6.pending = [] → hstateS6.emitted.length = hstateS6.received.length) :=
  worker_replies_in_order evsS6 hstateS6 rfl

/-- Genesis certificates of the four authorities (round 0, digests 100–103). -/
def genS2 : List Certificate :=
  [⟨0, 100, 0, []⟩, ⟨1, 101, 0, []⟩, ⟨2, 102, 0, []⟩, ⟨3, 103, 0, []⟩]

/-- Round-1 certificate of authority `i` (digest `110 + i`), listing all four
genesis digests as virtual parents. -/
def r1S2 (i : Nat) : Certificate := ⟨i, 110 + i, 1, [100, 101, 102, 103]⟩

/-- The round-2 certificate by `A` of Scenario S2: its virtual parents are the
digests of `B₁`, `C₁`, `D₁` only — `A`'s own round-1 digest `110` is omitted. -/
def certS2 : Certificate := ⟨0, 120, 2, [111, 112, 113]⟩

def s0S2 : VirtualState := VirtualState.new comS2 genS2

/-- The state after admitting all four round-1 certificates. -/
def sS2 : VirtualState :=
  (try_add ((try_add ((try_add ((try_add s0S2 (r1S2 0)).2) (r1S2 1)).2) (r1S2 2)).2) (r1S2 3)).2

/-- Claim C1 (code bug): in Scenario S2 the code accepts the round-2
certificate by `A` that omits `A`'s own round-1 certificate from its virtual
parents — `try_add` returns `true` and mutates the DAG, although the spec
scenario (and the comment above the check in `try_add` itself, which promises
that "one of the parents is from the same author as the certificate") requires
`false` and an unchanged DAG.  The premises of the scenario hold: all four
round-1 certificates were admitted, and `110 = A₁.digest` is not a parent. -/
theorem tryAdd_accepts_missing_self_parent :
    (try_add sS2 certS2).1 = true
  ∧ dagGet (try_add sS2 certS2).2 2 0 = some (120, certS2)
  ∧ (try_add sS2 certS2).2 ≠ sS2
  ∧ certS2.virtual_parents.contains 110 = false
  ∧ dagGet sS2 1 0 = some (110, r1S2 0)
  ∧ dagGet sS2 1 1 = some (111, r1S2 1)
  ∧ dagGet sS2 1 2 = some (112, r1S2 2)
  ∧ dagGet sS2 1 3 = some (113, r1S2 3) := by
  decide

/-- Single-authority committee used for the invariant counterexample. -/
def comX : Committee := ⟨[0]⟩

def genX : Certificate := ⟨0, 100, 0, []⟩

/-- A valid round-1 certificate over `genX`. -/
def c1X : Certificate := ⟨0, 101, 1, [100]⟩

/-- Admit `c1X`, then clean up round 0: round 1 stays, its parent round is gone. -/
def sX : VirtualState := cleanup (try_add (VirtualState.new comX [genX]) c1X).2 0

/-- Claim C2, counterexample: the spec's invariant 1 does not hold in every
reachable state — after `try_add` of a round-1 certificate and `cleanup(0)`,
round 1 is still stored but round 0 is gone, so the stored certificate's
parents and origin are no longer backed by round-0 entries. -/
theorem dag_invariant_not_preserved :
    ¬ (∀ (com : Committee) (gen : List Certificate) (s : VirtualState),
        Reachable com gen s → DagParentInvariantStrict s) := by
  intro h
  have hre : Reachable comX [genX] sX :=
    Reachable.clean (try_add (VirtualState.new comX [genX]) c1X).2 0
      (Reachable.add (VirtualState.new comX [genX]) c1X Reachable.init)
  have hinv := h comX [genX] sX hre
  have h1 : lookupA sX.dag 1 = some [(0, (101, c1X))] := by decide
  have h0 : lookupA sX.dag 0 = none := by decide
  obtain ⟨m', hm', hrest⟩ := hinv 0 [(0, (101, c1X))] h1 0 (101, c1X) (by decide)
  rw [h0] at hm'
  exact Option.noConfusion hm'

/-- Claim C2, amended: in every state reachable by `try_add` and `cleanup`
calls in which no successful `try_add` overwrites an occupied `(round, origin)`
slot with a different certificate, every certificate stored at a round `R > 0`
**whose round `R - 1` is still present in the DAG** has each virtual parent
stored at round `R - 1` and its origin present at round `R - 1`. -/
theorem dag_invariant_no_overwrite (com : Committee) (gen : List Certificate)
    (s : VirtualState) (h : ReachableNC com gen s) : DagParentInvariant s :=
  (reachableNC_invariant com gen s h).1

def sX2 : VirtualState := (try_add (VirtualState.new comX [genX]) c1X).2

theorem dag_invariant_no_overwrite_witness : DagParentInvariant sX2 :=
  dag_invariant_no_overwrite comX [genX] sX2
    (ReachableNC.add (VirtualState.new comX [genX]) c1X ReachableNC.init
      (by
        intro dc hdc
        rw [show dagGet (VirtualState.new comX [genX]) c1X.virtual_round c1X.origin = none
          from rfl] at hdc
        exact Option.noConfusion hdc))

theorem tryAdd_iff_admission_witness :
    ((try_add s0S2 (r1S2 0)).1 = true ↔
      (1 ≤ (r1S2 0).virtual_round
       ∧ (lookupA s0S2.dag ((r1S2 0).virtual_round - 1)).isSome
       ∧ (∀ p ∈ (r1S2 0).virtual_parents,
            ∃ m, lookupA s0S2.dag ((r1S2 0).virtual_round - 1) = some m ∧ hasDigest m p)
       ∧ (∃ m, lookupA s0S2.dag ((r1S2 0).virtual_round - 1) = some m
            ∧ hasAuthority m (r1S2 0).origin))) :=
  tryAdd_iff_admission s0S2 (r1S2 0)

theorem tryAdd_frame_effect_witness :
    dagGet (try_add s0S2 (r1S2 0)).2 (r1S2 0).virtual_round (r1S2 0).origin
      = some ((r1S2 0).digest, r1S2 0)
  ∧ (try_add s0S2 certS2).2 = s0S2 :=
  ⟨((tryAdd_frame_effect s0S2 (r1S2 0)).1 (by decide)).1,
   (tryAdd_frame_effect s0S2 certS2).2 (by decide)⟩

/-- Scenario S4 state: DAG populated at rounds 0–3, steady sets at waves 1–2. -/
def sS4 : VirtualState :=
  ⟨⟨[0, 1]⟩, [(0, []), (1, []), (2, []), (3, [])], [(1, [0]), (2, [0])], []⟩

theorem cleanup_boundary_witness :
    lookupA (cleanup sS4 2).dag 2 = none
  ∧ lookupA (cleanup sS4 2).dag 3 = lookupA sS4.dag 3
  ∧ lookupA (cleanup sS4 2).steady_authorities_sets 1 = none
  ∧ lookupA (cleanup sS4 2).steady_authorities_sets 2
      = lookupA sS4.steady_authorities_sets 2 :=
  ⟨(cleanup_boundary sS4 2).1 2 (by decide),
   (cleanup_boundary sS4 2).2.2.1 3 (by decide),
   ((cleanup_boundary sS4 2).2.1 1 (by decide)).1,
   ((cleanup_boundary sS4 2).2.2.2 2 (by decide)).1⟩

theorem cleanup_idempotent_monotone_witness :
    cleanup (cleanup sS4 1) 1 = cleanup sS4 1 ∧ cleanup (cleanup sS4 3) 1 = cleanup sS4 3 :=
  cleanup_idempotent_monotone sS4 1 3 (by decide)

theorem leader_election_formula_witness :
    steady_leader s0S2 3 = some ((lookupA s0S2.dag 3).bind (fun m => lookupA m 2)) := by
  obtain ⟨ls, hls, hsl, _⟩ := (leader_election_formula s0S2 3 (by decide)).1
  have hls2 : (sortKeys s0S2.committee.authorities)[((3 + 1) / 2) % s0S2.committee.size]?
      = some 2 := by decide
  rw [hls2] at hls
  rw [← Option.some.inj hls] at hsl
  exact hsl

def sEmptyC : VirtualState := VirtualState.new ⟨[]⟩ []

theorem leader_election_panic_safety_witness :
    ((steady_leader s0S2 5).isSome ∧ (fallback_leader s0S2 5).isSome
      ∧ ((5 + 1) / 2) % s0S2.committee.size < (sortKeys s0S2.committee.authorities).length
      ∧ ((5 + 1) / 4) % s0S2.committee.size < (sortKeys s0S2.committee.authorities).length)
  ∧ (steady_leader sEmptyC 5 = none ∧ fallback_leader sEmptyC 5 = none) :=
  ⟨(leader_election_panic_safety s0S2 5).1 (by decide),
   (leader_election_panic_safety sEmptyC 5).2 rfl⟩
